import Mathlib

/-!
Verification development for the GEMM launcher/interface framework
(`jit_blas_wrapper.h`) and the GPT-NeoX graph evaluator
(`gptneox_model_eval_internal` / `model_eval`) of this repository.

The C++ sources are shallowly embedded: loops become iteration over the
list of their index values, stateful buffer writes become explicit
function updates, and each side-effecting call of the launcher is
recorded as an event in a trace.  Machine `int` values that are
non-negative in every reachable configuration are modelled as `Nat`.
-/

namespace S2P

/-! ## Tiling utilities

Modelled from the spec: the helpers `remainsize`, `padto` and `padto_le`
live in `jit_blas_utils.h`, which is not among the analysed sources.
Their semantics is fixed by the spec's wording: a loop chunk is
`min(step, total - pos)` long, `padto` rounds up to the next multiple,
and `padto_le` is "the largest multiple of KTILE" at most the input. -/

/-- Modelled from the spec: `utils::remainsize(pos, total, size)` is the
size of the loop chunk starting at `pos`, namely `min size (total - pos)`. -/
def remainsize (pos total size : Nat) : Nat := min size (total - pos)

/-- Modelled from the spec: `utils::padto x n` rounds `x` up to the next
multiple of `n`. -/
def padto (x n : Nat) : Nat := ((x + n - 1) / n) * n

/-- Modelled from the spec: `utils::padto_le x n` rounds `x` down to the
largest multiple of `n` that is at most `x`. -/
def padto_le (x n : Nat) : Nat := (x / n) * n

/-- Index values taken by the C loop
`for (i = 0; i < total; i += step)` (for `step > 0`): the multiples of
`step` below `total`, in increasing order. -/
def chunkStarts (total step : Nat) : List Nat :=
  (List.range ((total + step - 1) / step)).map (fun c => c * step)

/-! ## GEMM launcher (`GemmLauncherPackWeight`)

The launcher's side effects are recorded as a trace of events: one
`getWeight` per K chunk, one or two `getActivation`/`kernForward` pairs
per M sub-tile of a K chunk, and one `epilogueCall` per output tile.
Offsets into the scratch stack buffer are recorded in element units of
the respective sub-buffer (`bOff` into `tmpB`, `cOff` into `tmpC`). -/

/-- Compile-time tile shape of a micro-kernel (`_GemmCore_T`). -/
structure GemmCoreT where
  MTILE : Nat
  NTILE : Nat
  KTILE : Nat
deriving DecidableEq, Repr

/-- The `ParallelConfig` struct of `GemmLauncherPackWeight`. -/
structure ParallelConfig where
  rowidx : Nat
  colidx : Nat
  rowsize : Nat
  colsize : Nat
  MStep : Nat
  NStep : Nat
  KStep : Nat
  StackSize : Nat
deriving DecidableEq, Repr

/-- Problem shape part of the `Param` struct (`M`, `N`, `K`). -/
structure GemmParam where
  M : Nat
  N : Nat
  K : Nat
deriving DecidableEq, Repr

/-- One observable action of `GemmLauncherPackWeight::launch` /
`run_block`. -/
inductive GemmEvent where
  | getWeight (kPadded nPadded iterk ncoord : Nat)
  | getActivation (mRemain kLen mcoord koff : Nat)
  | kernForward (mRemain nPadded kLen koff cOff bOff : Nat) (tail : Bool)
  | epilogueCall (rowcoord colcoord msize nsize : Nat)
deriving DecidableEq, Repr

/-- Trace of one iteration of the K loop of `run_block`
(`jit_blas_wrapper.h`, lines 83 to 114): fetch the B tile, then for every
`MTILE` sub-tile of the block issue the K-tile-aligned micro-kernel call
(when `k_paddedle` is nonzero) and the remainder-tail call (when
`k_remain - k_paddedle` is nonzero). -/
def kChunkEvents (core : GemmCoreT) (cfg : ParallelConfig) (K blk_m blk_n blk_msize blk_nsize iterk : Nat) :
    List GemmEvent :=
  let k_remain := remainsize iterk K cfg.KStep
  let k_padded := padto k_remain core.KTILE
  let k_paddedle := padto_le k_remain core.KTILE
  let n_padded := padto blk_nsize core.NTILE
  GemmEvent.getWeight k_padded n_padded iterk (cfg.colidx + blk_n) ::
  ((chunkStarts blk_msize core.MTILE).map (fun i =>
    let m_remain := remainsize i blk_msize core.MTILE
    (if k_paddedle ≠ 0 then
      [GemmEvent.getActivation m_remain k_paddedle (blk_m + i + cfg.rowidx) iterk,
       GemmEvent.kernForward m_remain n_padded k_paddedle iterk (i * cfg.NStep) 0 false]
     else []) ++
    (if k_remain - k_paddedle ≠ 0 then
      [GemmEvent.getActivation m_remain (k_remain - k_paddedle) (blk_m + i + cfg.rowidx) (iterk + k_paddedle),
       GemmEvent.kernForward m_remain n_padded core.KTILE (iterk + k_paddedle) (i * cfg.NStep)
         (k_paddedle * core.NTILE) true]
     else []))).flatten

/-- Trace of `GemmLauncherPackWeight::run_block` on one output tile: the
K loop in `KStep` chunks, followed by exactly one `Epilogue::forward`
call. -/
def run_block (core : GemmCoreT) (cfg : ParallelConfig) (K blk_m blk_n blk_msize blk_nsize : Nat) :
    List GemmEvent :=
  ((chunkStarts K cfg.KStep).map (kChunkEvents core cfg K blk_m blk_n blk_msize blk_nsize)).flatten ++
  [GemmEvent.epilogueCall (cfg.rowidx + blk_m) (cfg.colidx + blk_n) blk_msize blk_nsize]

/-- Trace of `GemmLauncherPackWeight::launch`: outer loop over the
assigned columns in `NStep` chunks, inner loop over the assigned rows in
`MStep` chunks, one `run_block` per output tile. -/
def launch (core : GemmCoreT) (cfg : ParallelConfig) (p : GemmParam) : List GemmEvent :=
  let rowremain := remainsize cfg.rowidx p.M cfg.rowsize
  let colremain := remainsize cfg.colidx p.N cfg.colsize
  ((chunkStarts colremain cfg.NStep).map (fun itern =>
    ((chunkStarts rowremain cfg.MStep).map (fun iterm =>
      run_block core cfg p.K iterm itern (remainsize iterm rowremain cfg.MStep)
        (remainsize itern colremain cfg.NStep))).flatten)).flatten

/-- Output-tile coordinate carried by an `epilogueCall` event, `none` for
every other event. -/
def epilogueCoordOf : GemmEvent → Option (Nat × Nat)
  | GemmEvent.epilogueCall r c _ _ => some (r, c)
  | _ => none

example : chunkStarts 10 4 = [0, 4, 8] := by decide
example : chunkStarts 0 4 = [] := by decide
example : padto_le 10 4 = 8 := by decide
example : padto 10 4 = 12 := by decide
example : remainsize 8 10 4 = 2 := by decide

/-! ### Structural lemmas about the launcher trace -/

lemma filterMap_flatten_map {α β γ : Type} (g : α → List β) (f : β → Option γ) (l : List α) :
    ((l.map g).flatten).filterMap f = (l.map fun x => (g x).filterMap f).flatten := by
  induction l with
  | nil => rfl
  | cons a t ih =>
    simp only [List.map_cons, List.flatten_cons, List.filterMap_append, ih]

lemma flatten_map_singleton {α β : Type} (f : α → β) (l : List α) :
    (l.map fun x => [f x]).flatten = l.map f := by
  induction l with
  | nil => rfl
  | cons a t ih => simp only [List.map_cons, List.flatten_cons, ih, List.singleton_append]

lemma kChunkEvents_no_epilogue (core : GemmCoreT) (cfg : ParallelConfig)
    (K bm bn bms bns iterk : Nat) :
    ∀ e ∈ kChunkEvents core cfg K bm bn bms bns iterk, epilogueCoordOf e = none := by
  intro e he
  simp only [kChunkEvents, List.mem_cons, List.mem_flatten, List.mem_map] at he
  rcases he with rfl | ⟨l, ⟨i, hi, rfl⟩, hel⟩
  · rfl
  rcases List.mem_append.1 hel with h | h
  · by_cases hc : padto_le (remainsize iterk K cfg.KStep) core.KTILE ≠ 0
    · rw [if_pos hc] at h
      simp only [List.mem_cons, List.not_mem_nil, or_false] at h
      rcases h with rfl | rfl <;> rfl
    · rw [if_neg hc] at h
      exact absurd h (List.not_mem_nil e)
  · by_cases hc : remainsize iterk K cfg.KStep - padto_le (remainsize iterk K cfg.KStep) core.KTILE ≠ 0
    · rw [if_pos hc] at h
      simp only [List.mem_cons, List.not_mem_nil, or_false] at h
      rcases h with rfl | rfl <;> rfl
    · rw [if_neg hc] at h
      exact absurd h (List.not_mem_nil e)

lemma run_block_filterMap (core : GemmCoreT) (cfg : ParallelConfig) (K bm bn bms bns : Nat) :
    (run_block core cfg K bm bn bms bns).filterMap epilogueCoordOf =
      [(cfg.rowidx + bm, cfg.colidx + bn)] := by
  rw [run_block, List.filterMap_append]
  rw [List.filterMap_eq_nil_iff.2]
  · rfl
  · intro e he
    rcases List.mem_flatten.1 he with ⟨l, hl, hel⟩
    rcases List.mem_map.1 hl with ⟨iterk, _, rfl⟩
    exact kChunkEvents_no_epilogue core cfg K bm bn bms bns iterk e hel

/-- Spec-side form of one K-chunk trace, worded as the specification
states it: the chunk of length `remainsize iterk K KStep` is split into
the largest multiple of `KTILE` (one aligned micro-kernel call, present
when that multiple is nonzero) plus a remainder tail (a second partial
call of length `KTILE`, present exactly when the chunk is not
`KTILE`-aligned, i.e. when `¬ KTILE ∣ k_remain`). -/
def kChunkSplitSpec (core : GemmCoreT) (cfg : ParallelConfig) (K blk_m blk_n blk_msize blk_nsize iterk : Nat) :
    List GemmEvent :=
  let k_remain := remainsize iterk K cfg.KStep
  let k_paddedle := padto_le k_remain core.KTILE
  let n_padded := padto blk_nsize core.NTILE
  GemmEvent.getWeight (padto k_remain core.KTILE) n_padded iterk (cfg.colidx + blk_n) ::
  ((chunkStarts blk_msize core.MTILE).map (fun i =>
    let m_remain := remainsize i blk_msize core.MTILE
    (if k_paddedle ≠ 0 then
      [GemmEvent.getActivation m_remain k_paddedle (blk_m + i + cfg.rowidx) iterk,
       GemmEvent.kernForward m_remain n_padded k_paddedle iterk (i * cfg.NStep) 0 false]
     else []) ++
    (if ¬ core.KTILE ∣ k_remain then
      [GemmEvent.getActivation m_remain (k_remain - k_paddedle) (blk_m + i + cfg.rowidx) (iterk + k_paddedle),
       GemmEvent.kernForward m_remain n_padded core.KTILE (iterk + k_paddedle) (i * cfg.NStep)
         (k_paddedle * core.NTILE) true]
     else []))).flatten

lemma sub_padto_le_eq_mod (x n : Nat) : x - padto_le x n = x % n := by
  have h := Nat.div_add_mod x n
  have h2 : padto_le x n = n * (x / n) := Nat.mul_comm _ _
  omega

lemma tail_cond_iff (x n : Nat) : x - padto_le x n ≠ 0 ↔ ¬ n ∣ x := by
  rw [sub_padto_le_eq_mod, Ne, ← Nat.dvd_iff_mod_eq_zero]

/-- C1.  For every thread rectangle `(rowidx, colidx, rowsize, colsize)`
and every parameter triple `(M, N, K)` with positive step sizes,
`GemmLauncherPackWeight::launch`:
(1) iterates output tiles with the outer loop over the assigned columns
in `NStep` chunks and the inner loop over the assigned rows in `MStep`
chunks, invoking the `Epilogue` exactly once per output tile (the
epilogue events of the trace are exactly the tile coordinates in that
nested order);
(2) each tile's trace is the K loop over `K` in `KStep` chunks followed
by the single epilogue call, and no epilogue occurs inside the K loop;
(3) each K chunk's trace splits the activation fetch into the largest
multiple of `KTILE` (which divides by `KTILE`, is at most the chunk
length, and dominates every `KTILE` multiple below the chunk length)
processed by one micro-kernel call, plus a remainder tail processed by a
second partial call issued if and only if the chunk is not
`KTILE`-aligned. -/
theorem c1_launch_tile_iteration (core : GemmCoreT) (cfg : ParallelConfig) (p : GemmParam)
    (hM : 0 < cfg.MStep) (hN : 0 < cfg.NStep) (hK : 0 < cfg.KStep) (hKT : 0 < core.KTILE) :
    ((launch core cfg p).filterMap epilogueCoordOf =
      ((chunkStarts (remainsize cfg.colidx p.N cfg.colsize) cfg.NStep).map (fun itern =>
        (chunkStarts (remainsize cfg.rowidx p.M cfg.rowsize) cfg.MStep).map (fun iterm =>
          (cfg.rowidx + iterm, cfg.colidx + itern)))).flatten)
    ∧
    (∀ bm bn bms bns : Nat,
      run_block core cfg p.K bm bn bms bns =
        ((chunkStarts p.K cfg.KStep).map (kChunkEvents core cfg p.K bm bn bms bns)).flatten ++
          [GemmEvent.epilogueCall (cfg.rowidx + bm) (cfg.colidx + bn) bms bns] ∧
      ∀ e ∈ ((chunkStarts p.K cfg.KStep).map (kChunkEvents core cfg p.K bm bn bms bns)).flatten,
        epilogueCoordOf e = none)
    ∧
    (∀ bm bn bms bns iterk : Nat, iterk ∈ chunkStarts p.K cfg.KStep →
      core.KTILE ∣ padto_le (remainsize iterk p.K cfg.KStep) core.KTILE ∧
      padto_le (remainsize iterk p.K cfg.KStep) core.KTILE ≤ remainsize iterk p.K cfg.KStep ∧
      (∀ m : Nat, core.KTILE ∣ m → m ≤ remainsize iterk p.K cfg.KStep →
        m ≤ padto_le (remainsize iterk p.K cfg.KStep) core.KTILE) ∧
      kChunkEvents core cfg p.K bm bn bms bns iterk =
        kChunkSplitSpec core cfg p.K bm bn bms bns iterk) := by
  refine ⟨?_, ?_, ?_⟩
  · simp only [launch, filterMap_flatten_map, run_block_filterMap, flatten_map_singleton]
  · intro bm bn bms bns
    refine ⟨rfl, ?_⟩
    intro e he
    rcases List.mem_flatten.1 he with ⟨l, hl, hel⟩
    rcases List.mem_map.1 hl with ⟨iterk, _, rfl⟩
    exact kChunkEvents_no_epilogue core cfg p.K bm bn bms bns iterk e hel
  · intro bm bn bms bns iterk _
    refine ⟨dvd_mul_left core.KTILE _, Nat.div_mul_le_self _ _, ?_, ?_⟩
    · intro m hdvd hle
      rcases hdvd with ⟨c, rfl⟩
      have hc : c ≤ remainsize iterk p.K cfg.KStep / core.KTILE := by
        rw [Nat.le_div_iff_mul_le hKT, Nat.mul_comm]
        exact hle
      calc core.KTILE * c = c * core.KTILE := Nat.mul_comm _ _
        _ ≤ remainsize iterk p.K cfg.KStep / core.KTILE * core.KTILE :=
            Nat.mul_le_mul_right _ hc
    · simp only [kChunkEvents, kChunkSplitSpec,
        tail_cond_iff (remainsize iterk p.K cfg.KStep) core.KTILE]

/-- Witness for C1: concrete instantiation with `KTILE = 2`, a 4 by 6
rectangle, steps `(2, 3, 2)` and `K = 5` (a non-`KTILE`-aligned final
chunk). -/
theorem c1_witness :
    (launch ⟨2, 2, 2⟩ ⟨0, 0, 4, 6, 2, 3, 2, 64⟩ ⟨4, 6, 5⟩).filterMap epilogueCoordOf =
      ((chunkStarts (remainsize 0 6 6) 3).map (fun itern =>
        (chunkStarts (remainsize 0 4 4) 2).map (fun iterm =>
          (0 + iterm, 0 + itern)))).flatten :=
  (c1_launch_tile_iteration ⟨2, 2, 2⟩ ⟨0, 0, 4, 6, 2, 3, 2, 64⟩ ⟨4, 6, 5⟩
    (by decide) (by decide) (by decide) (by decide)).1

/-! ## Interface layer (`GemmInterfacePackWeight`, `GemmInterfaceDynamicQuant`)

The interface fans the launcher out over the threads of the parallel
region.  A partition plan is modelled by its observable behaviour: the
`getIndex` map from a thread id to the `(rowidx, colidx, rowsize,
colsize)` rectangle (C `int`s, so possibly non-positive for idle
threads) and the three step sizes. -/

/-- Return codes of the interface layer (`JBLAS_CODE`). -/
inductive JBLAS_CODE where
  | JblasSuccess
  | JblasInvalidParam
  | JblasNotSupport
deriving DecidableEq, Repr

/-- Behavioural model of a `Parallel2DGemm` partition plan after
`update`: `getIndex` and the step accessors. -/
structure ParallelPlan where
  getIndex : Nat → Int × Int × Int × Int
  MStep : Nat
  NStep : Nat
  KStep : Nat

/-- Body of the parallel region of `GemmInterfacePackWeight::compute`
(`jit_blas_wrapper.h`, lines 150 to 157): read the thread's rectangle
and call `launch` on it only when both sizes are positive. -/
def threadLaunchTrace (core : GemmCoreT) (plan : ParallelPlan) (l2cache : Nat) (p : GemmParam)
    (tidx : Nat) : List GemmEvent :=
  let r := plan.getIndex tidx
  if 0 < r.2.2.1 ∧ 0 < r.2.2.2 then
    launch core
      ⟨r.1.toNat, r.2.1.toNat, r.2.2.1.toNat, r.2.2.2.toNat, plan.MStep, plan.NStep, plan.KStep,
        l2cache⟩ p
  else []

/-- `GemmInterfacePackWeight::compute`: spawn `numThreads` workers, each
running `threadLaunchTrace`, and return `JblasSuccess` (the function
body has no other return path). -/
def GemmInterfacePackWeight_compute (core : GemmCoreT) (plan : ParallelPlan)
    (l2cache numThreads : Nat) (p : GemmParam) : JBLAS_CODE × List (List GemmEvent) :=
  (JBLAS_CODE.JblasSuccess, (List.range numThreads).map (threadLaunchTrace core plan l2cache p))

/-- Observable per-thread actions of the dynamic-quantization parallel
region (`GemmInterfaceDynamicQuant::compute`, lines 288 to 299). -/
inductive IfaceEvent where
  | quantizeT (tidx : Nat)
  | ompBarrier
  | launchCall (tidx : Nat) (trace : List GemmEvent)
deriving DecidableEq, Repr

/-- Per-thread program of `GemmInterfaceDynamicQuant::compute`: quantize
the thread's activation rows, hit the `omp barrier`, then launch on the
thread's rectangle only when both sizes are positive. -/
def threadDynEvents (core : GemmCoreT) (plan : ParallelPlan) (l2cache : Nat) (p : GemmParam)
    (tidx : Nat) : List IfaceEvent :=
  let r := plan.getIndex tidx
  [IfaceEvent.quantizeT tidx, IfaceEvent.ompBarrier] ++
  (if 0 < r.2.2.1 ∧ 0 < r.2.2.2 then
    [IfaceEvent.launchCall tidx
      (launch core
        ⟨r.1.toNat, r.2.1.toNat, r.2.2.1.toNat, r.2.2.2.toNat, plan.MStep, plan.NStep, plan.KStep,
          l2cache⟩ p)]
   else [])

/-- `GemmInterfaceDynamicQuant::compute`: quantization pre-pass plus
launch per thread, returning `JblasSuccess` (again the only return). -/
def GemmInterfaceDynamicQuant_compute (core : GemmCoreT) (plan : ParallelPlan)
    (l2cache numThreads : Nat) (p : GemmParam) : JBLAS_CODE × List (List IfaceEvent) :=
  (JBLAS_CODE.JblasSuccess, (List.range numThreads).map (threadDynEvents core plan l2cache p))

/-! ### ISA coverage (the `static_assert` at construction) -/

/-- Runtime ISA levels (`JBLAS_ISA`), in the capability order used by the
`static_assert` comparison. Modelled from the spec: the enum lives in a
jblas header that is not among the analysed sources; the order is the
one the default instantiations rely on. -/
inductive JBLAS_ISA where
  | JblasNoSIMD
  | JblasAVX
  | JblasAVX2
  | JblasAVX_VNNI
  | JblasAVX512F
  | JblasAVX512_VNNI
  | JblasAMX_BF16
  | JblasAMX_INT8
  | JblasAVX512_FP16
deriving DecidableEq, Repr

/-- Numeric level of an ISA, the value compared by the launcher's
`static_assert(GemmCore::ISA <= _RT_ISA_T)`. -/
def JBLAS_ISA.level : JBLAS_ISA → Nat
  | JblasNoSIMD => 0
  | JblasAVX => 1
  | JblasAVX2 => 2
  | JblasAVX_VNNI => 3
  | JblasAVX512F => 4
  | JblasAVX512_VNNI => 5
  | JblasAMX_BF16 => 6
  | JblasAMX_INT8 => 7
  | JblasAVX512_FP16 => 8

/-- The compile-time assertion of `GemmLauncherPackWeight` and
`GemmLauncherPackWeightDynamicQuant` (line 43 and line 181): the runtime
ISA must cover the GEMM core's ISA. -/
def staticAssertISACovers (coreISA rtISA : JBLAS_ISA) : Prop := coreISA.level ≤ rtISA.level

instance (a b : JBLAS_ISA) : Decidable (staticAssertISACovers a b) := by
  unfold staticAssertISACovers; infer_instance

/-- The `(GemmCore ISA, runtime ISA)` pairs of every kernel instantiation
in namespace `gemm_default` (`jit_blas_wrapper.h`, lines 311 to 420).
Modelled from the spec: each core's ISA is the one named by its
`GemmCore_Row_NN_...` suffix (the core definitions live in
`jit_blas_gemm.h`, not among the analysed sources). -/
def gemm_default_instances : List (JBLAS_ISA × JBLAS_ISA) :=
  [(JBLAS_ISA.JblasAVX512F, JBLAS_ISA.JblasAVX512F),
   (JBLAS_ISA.JblasAVX512_VNNI, JBLAS_ISA.JblasAVX512_VNNI),
   (JBLAS_ISA.JblasAVX512_VNNI, JBLAS_ISA.JblasAVX512_VNNI),
   (JBLAS_ISA.JblasAMX_BF16, JBLAS_ISA.JblasAMX_BF16),
   (JBLAS_ISA.JblasAMX_BF16, JBLAS_ISA.JblasAMX_BF16),
   (JBLAS_ISA.JblasAMX_INT8, JBLAS_ISA.JblasAMX_INT8),
   (JBLAS_ISA.JblasAMX_INT8, JBLAS_ISA.JblasAMX_INT8),
   (JBLAS_ISA.JblasAMX_INT8, JBLAS_ISA.JblasAMX_INT8),
   (JBLAS_ISA.JblasAMX_INT8, JBLAS_ISA.JblasAMX_INT8),
   (JBLAS_ISA.JblasAVX512_FP16, JBLAS_ISA.JblasAVX512_FP16),
   (JBLAS_ISA.JblasAVX512_FP16, JBLAS_ISA.JblasAVX512_FP16)]

/-- C4.  For every argument value, both interface-level `compute`
entry points return `JblasSuccess` (their bodies have no other return
path, so no runtime error status can arise from well-formed inputs), and
the only ISA/GemmCore mismatch check is the construction-time
`static_assert`, which every shipped `gemm_default` instantiation
satisfies. -/
theorem c4_compute_always_succeeds :
    (∀ (core : GemmCoreT) (plan : ParallelPlan) (l2cache numThreads : Nat) (p : GemmParam),
      (GemmInterfacePackWeight_compute core plan l2cache numThreads p).1 =
        JBLAS_CODE.JblasSuccess) ∧
    (∀ (core : GemmCoreT) (plan : ParallelPlan) (l2cache numThreads : Nat) (p : GemmParam),
      (GemmInterfaceDynamicQuant_compute core plan l2cache numThreads p).1 =
        JBLAS_CODE.JblasSuccess) ∧
    (∀ q ∈ gemm_default_instances, staticAssertISACovers q.1 q.2) := by
  refine ⟨fun _ _ _ _ _ => rfl, fun _ _ _ _ _ => rfl, ?_⟩
  decide

/-- Witness for C4: the AVX512F instantiation of `gemm_default` passes
its construction-time ISA-coverage assertion. -/
theorem c4_witness :
    staticAssertISACovers
      (JBLAS_ISA.JblasAVX512F, JBLAS_ISA.JblasAVX512F).1
      (JBLAS_ISA.JblasAVX512F, JBLAS_ISA.JblasAVX512F).2 :=
  c4_compute_always_succeeds.2.2 (JBLAS_ISA.JblasAVX512F, JBLAS_ISA.JblasAVX512F) (by decide)

/-- C6.  A thread whose partition-plan rectangle has `rowsize ≤ 0` or
`colsize ≤ 0` performs no tile computation: its trace in
`GemmInterfacePackWeight::compute` is empty, and its trace in
`GemmInterfaceDynamicQuant::compute` contains no `launch` call. -/
theorem c6_zero_rectangle_skips_launch (core : GemmCoreT) (plan : ParallelPlan)
    (l2cache : Nat) (p : GemmParam) (tidx : Nat)
    (h : (plan.getIndex tidx).2.2.1 ≤ 0 ∨ (plan.getIndex tidx).2.2.2 ≤ 0) :
    threadLaunchTrace core plan l2cache p tidx = [] ∧
    ∀ t tr, IfaceEvent.launchCall t tr ∉ threadDynEvents core plan l2cache p tidx := by
  have hcond : ¬ (0 < (plan.getIndex tidx).2.2.1 ∧ 0 < (plan.getIndex tidx).2.2.2) := by
    rcases h with h | h
    · exact fun hc => absurd hc.1 (not_lt.2 h)
    · exact fun hc => absurd hc.2 (not_lt.2 h)
  constructor
  · unfold threadLaunchTrace
    rw [if_neg hcond]
  · intro t tr hmem
    simp only [threadDynEvents] at hmem
    rw [if_neg hcond] at hmem
    simp only [List.append_nil, List.mem_cons, List.not_mem_nil, or_false] at hmem
    rcases hmem with h1 | h1 <;> exact IfaceEvent.noConfusion h1

/-- Witness for C6: a plan whose thread 0 gets a rectangle with
`rowsize = 0` produces an empty trace and no launch call. -/
theorem c6_witness :
    threadLaunchTrace ⟨2, 2, 2⟩ ⟨fun _ => (0, 0, 0, 7), 2, 2, 2⟩ 64 ⟨4, 4, 4⟩ 0 = [] ∧
    ∀ t tr,
      IfaceEvent.launchCall t tr ∉ threadDynEvents ⟨2, 2, 2⟩ ⟨fun _ => (0, 0, 0, 7), 2, 2, 2⟩ 64 ⟨4, 4, 4⟩ 0 :=
  c6_zero_rectangle_skips_launch ⟨2, 2, 2⟩ ⟨fun _ => (0, 0, 0, 7), 2, 2, 2⟩ 64 ⟨4, 4, 4⟩ 0
    (Or.inl (by decide))

/-! ## The dynamic-quantization barrier (`#pragma omp barrier`)

`GemmInterfaceDynamicQuant::compute` runs, on every thread, the program
`quantizeT; omp barrier; launch` (see `threadDynEvents`).  The barrier's
cross-thread semantics is modelled operationally: a thread may pass the
barrier only once every thread has finished its `quantizeT`, and only a
thread past the barrier may read the quantized activations (the
`launch`).  Schedulers interleave the threads arbitrarily. -/

/-- Progress of one thread through the parallel region of
`GemmInterfaceDynamicQuant::compute`. -/
inductive DynPhase where
  | beforeQuant
  | atBarrier
  | pastBarrier
  | finished
deriving DecidableEq, Repr

/-- One scheduler-visible action of a thread. -/
inductive DynAction (T : Nat) where
  | quant (t : Fin T)
  | pass (t : Fin T)
  | readQuantized (t : Fin T)
deriving DecidableEq, Repr

/-- Global state of the parallel region: each thread's phase. -/
def DynState (T : Nat) := Fin T → DynPhase

/-- All threads enter the parallel region before `quantizeT`. -/
def dynInit (T : Nat) : DynState T := fun _ => DynPhase.beforeQuant

/-- Interleaving semantics of the region.  `pass` is the barrier release:
it requires every thread to have completed its `quantizeT` (no thread
still in `beforeQuant`), which is exactly the full-barrier contract of
`#pragma omp barrier`; `readQuantized` is the launch-phase read of the
quantized activations and requires the acting thread to be past the
barrier. -/
inductive DynStep (T : Nat) : DynState T → DynAction T → DynState T → Prop where
  | quant (s : DynState T) (t : Fin T) (h : s t = DynPhase.beforeQuant) :
      DynStep T s (DynAction.quant t) (Function.update s t DynPhase.atBarrier)
  | pass (s : DynState T) (t : Fin T) (h : s t = DynPhase.atBarrier)
      (hall : ∀ u, s u ≠ DynPhase.beforeQuant) :
      DynStep T s (DynAction.pass t) (Function.update s t DynPhase.pastBarrier)
  | readQuantized (s : DynState T) (t : Fin T) (h : s t = DynPhase.pastBarrier) :
      DynStep T s (DynAction.readQuantized t) (Function.update s t DynPhase.finished)

/-- Executions of the parallel region from the initial state, recording
the action trace. -/
inductive DynExec (T : Nat) : DynState T → List (DynAction T) → Prop where
  | init : DynExec T (dynInit T) []
  | step {s : DynState T} {tr : List (DynAction T)} {a : DynAction T} {s2 : DynState T} :
      DynExec T s tr → DynStep T s a s2 → DynExec T s2 (tr ++ [a])

lemma dynExec_invariant {T : Nat} {s : DynState T} {tr : List (DynAction T)}
    (h : DynExec T s tr) :
    (∀ t, s t ≠ DynPhase.beforeQuant → DynAction.quant t ∈ tr) ∧
    (∀ t, (s t = DynPhase.pastBarrier ∨ s t = DynPhase.finished) →
      ∀ u, s u ≠ DynPhase.beforeQuant) := by
  induction h with
  | init =>
    refine ⟨fun t ht => absurd rfl ht, fun t ht u => ?_⟩
    rcases ht with ht | ht <;> exact absurd ht (by simp [dynInit])
  | step hexec hstep ih =>
    obtain ⟨ih1, ih2⟩ := ih
    cases hstep with
    | quant t₀ h0 =>
      refine ⟨fun t ht => ?_, fun t ht u => ?_⟩
      · by_cases heq : t = t₀
        · subst heq
          exact List.mem_append.2 (Or.inr (List.mem_singleton.2 rfl))
        · rw [Function.update_noteq heq] at ht
          exact List.mem_append.2 (Or.inl (ih1 t ht))
      · by_cases heq : t = t₀
        · subst heq
          rw [Function.update_same] at ht
          rcases ht with ht | ht <;> exact absurd ht (by simp)
        · rw [Function.update_noteq heq] at ht
          have hall := ih2 t ht
          by_cases hu : u = t₀
          · subst hu
            rw [Function.update_same]
            simp
          · rw [Function.update_noteq hu]
            exact hall u
    | pass t₀ h0 hall =>
      refine ⟨fun t ht => ?_, fun t ht2 u => ?_⟩
      · by_cases heq : t = t₀
        · subst heq
          refine List.mem_append.2 (Or.inl (ih1 t ?_))
          rw [h0]
          simp
        · rw [Function.update_noteq heq] at ht
          exact List.mem_append.2 (Or.inl (ih1 t ht))
      · by_cases hu : u = t₀
        · subst hu
          rw [Function.update_same]
          simp
        · rw [Function.update_noteq hu]
          exact hall u
    | readQuantized t₀ h0 =>
      have hall := ih2 t₀ (Or.inl h0)
      refine ⟨fun t ht => ?_, fun t ht2 u => ?_⟩
      · by_cases heq : t = t₀
        · subst heq
          refine List.mem_append.2 (Or.inl (ih1 t ?_))
          rw [h0]
          simp
        · rw [Function.update_noteq heq] at ht
          exact List.mem_append.2 (Or.inl (ih1 t ht))
      · by_cases hu : u = t₀
        · subst hu
          rw [Function.update_same]
          simp
        · rw [Function.update_noteq hu]
          exact hall u

lemma append_singleton_split {α : Type} {tr l₁ l₂ : List α} {a x : α}
    (h : tr ++ [a] = l₁ ++ x :: l₂) :
    (l₂ = [] ∧ a = x ∧ l₁ = tr) ∨ ∃ l₃, l₂ = l₃ ++ [a] ∧ tr = l₁ ++ x :: l₃ := by
  rcases List.eq_nil_or_concat l₂ with rfl | ⟨l₃, b, rfl⟩
  · left
    obtain ⟨h3, h4⟩ := List.append_inj' h rfl
    injection h4 with h5 h6
    exact ⟨rfl, h5, h3.symm⟩
  · right
    rw [List.concat_eq_append] at h
    have h2 : tr ++ [a] = (l₁ ++ x :: l₃) ++ [b] := by
      rw [h]
      simp
    obtain ⟨h4, h5⟩ := List.append_inj' h2 rfl
    injection h5 with h6 h7
    subst h6
    refine ⟨l₃, ?_, h4⟩
    rw [List.concat_eq_append]

/-- C5.  In every execution of the dynamic-quantization parallel region
(per-thread program `quantizeT; omp barrier; launch`, cf.
`threadDynEvents`), whenever some thread reads the quantized activations
for tile compute, every thread's `quantizeT` already appears earlier in
the trace: the single full barrier orders the whole quantization phase
before the whole launch phase. -/
theorem c5_all_quantize_before_any_read {T : Nat} {s : DynState T}
    {tr l₁ l₂ : List (DynAction T)} {t : Fin T}
    (hexec : DynExec T s tr) (hsplit : tr = l₁ ++ DynAction.readQuantized t :: l₂) :
    ∀ u : Fin T, DynAction.quant u ∈ l₁ := by
  induction hexec generalizing l₁ l₂ with
  | init => exact absurd hsplit (by simp)
  | @step s0 tr0 a s2 hexec0 hstep ih =>
    rcases append_singleton_split hsplit with ⟨rfl, rfl, rfl⟩ | ⟨l₃, rfl, hsplit0⟩
    · cases hstep with
      | readQuantized t h0 =>
        intro u
        obtain ⟨ih1, ih2⟩ := dynExec_invariant hexec0
        exact ih1 u (ih2 t (Or.inl h0) u)
    · exact ih hsplit0

/-- Witness for C5: a two-thread execution in which thread 0 quantizes,
thread 1 quantizes, thread 0 passes the barrier and then reads; both
`quant` actions precede the read. -/
theorem c5_witness :
    DynAction.quant (0 : Fin 2) ∈
        ([DynAction.quant 0, DynAction.quant 1, DynAction.pass 0] : List (DynAction 2)) ∧
    DynAction.quant (1 : Fin 2) ∈
        ([DynAction.quant 0, DynAction.quant 1, DynAction.pass 0] : List (DynAction 2)) := by
  have e1 : DynExec 2 (Function.update (dynInit 2) 0 DynPhase.atBarrier)
      ([] ++ [DynAction.quant 0]) :=
    DynExec.step DynExec.init (DynStep.quant _ 0 rfl)
  have e2 : DynExec 2
      (Function.update (Function.update (dynInit 2) 0 DynPhase.atBarrier) 1 DynPhase.atBarrier)
      (([] ++ [DynAction.quant 0]) ++ [DynAction.quant 1]) :=
    DynExec.step e1 (DynStep.quant _ 1 (by simp [Function.update, dynInit]))
  have e3 : DynExec 2
      (Function.update
        (Function.update (Function.update (dynInit 2) 0 DynPhase.atBarrier) 1 DynPhase.atBarrier)
        0 DynPhase.pastBarrier)
      ((([] ++ [DynAction.quant 0]) ++ [DynAction.quant 1]) ++ [DynAction.pass 0]) :=
    DynExec.step e2 (DynStep.pass _ 0 (by simp [Function.update, dynInit])
      (by intro u; fin_cases u <;> simp [Function.update, dynInit]))
  have e4 : DynExec 2
      (Function.update
        (Function.update
          (Function.update (Function.update (dynInit 2) 0 DynPhase.atBarrier) 1 DynPhase.atBarrier)
          0 DynPhase.pastBarrier)
        0 DynPhase.finished)
      (((([] ++ [DynAction.quant 0]) ++ [DynAction.quant 1]) ++ [DynAction.pass 0]) ++
        [DynAction.readQuantized 0]) :=
    DynExec.step e3 (DynStep.readQuantized _ 0 (by simp [Function.update, dynInit]))
  have hmain := c5_all_quantize_before_any_read e4
    (show (((([] ++ [DynAction.quant 0]) ++ [DynAction.quant 1]) ++ [DynAction.pass 0]) ++
        [DynAction.readQuantized (0 : Fin 2)]) =
      [DynAction.quant 0, DynAction.quant 1, DynAction.pass 0] ++
        DynAction.readQuantized 0 :: [] by simp)
  exact ⟨hmain 0, hmain 1⟩

/-! ## GPT-NeoX graph evaluator (`gptneox_model_eval_internal`)

The evaluator's key/value cache is modelled at element granularity: the
`k` and `v` buffers are total maps from element index to an abstract
element value (`ℤ`, standing for the float bit pattern), and the graph's
`ne_cpy` nodes become explicit function updates over the written index
ranges.  Layer `il` writes

* `k[n_embd*(il*n_ctx + n_past) + t] := Kcur[t]` for `t < N*n_embd`
  (the 1-D view at part_001 lines 160 to 161 and the `ne_cpy` at 166);
* `v[il*n_ctx*n_embd + j*n_ctx + n_past + i] := Vcur[i][j]` for `i < N`,
  `j < n_embd` (the strided 2-D view at lines 162 to 164 and the
  `ne_cpy` at 167). -/

/-- Shape parameters of one `gptneox_model_eval_internal` call. -/
structure EvalParams where
  n_layer : Nat
  n_ctx : Nat
  n_embd : Nat
  n_vocab : Nat
  n_past : Nat
  N : Nat
deriving DecidableEq, Repr

/-- The key/value cache (`kv_self`): element contents of the `k` and `v`
buffers and the valid token count `n`. -/
structure KVCache where
  k : Nat → ℤ
  v : Nat → ℤ
  n : Nat

/-- Element index of the `e`-th component of cached key position `pos`
of layer `il` (layout of the 1-D `k` view, part_001 line 161). -/
def kIndex (P : EvalParams) (il pos e : Nat) : Nat :=
  P.n_embd * (il * P.n_ctx + pos) + e

/-- Element index of the `e`-th component of cached value position `pos`
of layer `il` (layout of the strided 2-D `v` view, lines 163 to 164). -/
def vIndex (P : EvalParams) (il pos e : Nat) : Nat :=
  il * (P.n_ctx * P.n_embd) + e * P.n_ctx + pos

/-- Element index set written by layer `il`'s `ne_cpy(Kcur, k)` node:
`N*n_embd` contiguous elements from offset `n_embd*(il*n_ctx + n_past)`. -/
def inKRegion (P : EvalParams) (il idx : Nat) : Prop :=
  P.n_embd * (il * P.n_ctx + P.n_past) ≤ idx ∧
  idx < P.n_embd * (il * P.n_ctx + P.n_past) + P.N * P.n_embd

instance (P : EvalParams) (il idx : Nat) : Decidable (inKRegion P il idx) := by
  unfold inKRegion
  infer_instance

/-- Element index set written by layer `il`'s `ne_cpy(Vcur, v)` node:
the strided set `{il*n_ctx*n_embd + j*n_ctx + n_past + i | i < N, j <
n_embd}`, characterised arithmetically (row `= (idx - base) % n_ctx`),
which coincides with the view's index set whenever `n_past + N ≤ n_ctx`. -/
def inVRegion (P : EvalParams) (il idx : Nat) : Prop :=
  il * (P.n_ctx * P.n_embd) ≤ idx ∧ idx < (il + 1) * (P.n_ctx * P.n_embd) ∧
  P.n_past ≤ (idx - il * (P.n_ctx * P.n_embd)) % P.n_ctx ∧
  (idx - il * (P.n_ctx * P.n_embd)) % P.n_ctx < P.n_past + P.N

instance (P : EvalParams) (il idx : Nat) : Decidable (inVRegion P il idx) := by
  unfold inVRegion
  infer_instance

/-- The `ne_cpy(Kcur, k)` node of layer `il`: writes the flattened new-K
tensor (`newK il : flat index → value`, `N*n_embd` elements) at element
offset `n_embd*(il*n_ctx + n_past)`. -/
def writeKLayer (P : EvalParams) (newK : Nat → Nat → ℤ) (il : Nat) (c : Nat → ℤ) : Nat → ℤ :=
  fun idx =>
    if inKRegion P il idx then
      newK il (idx - P.n_embd * (il * P.n_ctx + P.n_past))
    else c idx

/-- The `ne_cpy(Vcur, v)` node of layer `il`: writes new-V element
`(position i, embedding j)`, `newV il i j`, to index
`il*n_ctx*n_embd + j*n_ctx + n_past + i`.  The guard characterises that
strided index set arithmetically (row `= (idx - base) % n_ctx`, column
`= (idx - base) / n_ctx`), which coincides with the view's index set
whenever `n_past + N ≤ n_ctx`. -/
def writeVLayer (P : EvalParams) (newV : Nat → Nat → Nat → ℤ) (il : Nat) (c : Nat → ℤ) : Nat → ℤ :=
  fun idx =>
    if inVRegion P il idx then
      newV il ((idx - il * (P.n_ctx * P.n_embd)) % P.n_ctx - P.n_past)
        ((idx - il * (P.n_ctx * P.n_embd)) / P.n_ctx)
    else c idx

/-- K-cache contents after the per-layer loop has issued the `ne_cpy`
nodes of layers `0, …, n-1`. -/
def writeAllK (P : EvalParams) (newK : Nat → Nat → ℤ) : Nat → (Nat → ℤ) → Nat → ℤ
  | 0, c => c
  | il + 1, c => writeKLayer P newK il (writeAllK P newK il c)

/-- V-cache contents after the per-layer loop has issued the `ne_cpy`
nodes of layers `0, …, n-1`. -/
def writeAllV (P : EvalParams) (newV : Nat → Nat → Nat → ℤ) : Nat → (Nat → ℤ) → Nat → ℤ
  | 0, c => c
  | il + 1, c => writeVLayer P newV il (writeAllV P newV il c)

/-- Cache state after one evaluate call: all layers' K/V writes, and the
token-count update `kv_self.n = n_past + N` of part_001 line 273. -/
def eval_kv_update (P : EvalParams) (newK : Nat → Nat → ℤ) (newV : Nat → Nat → Nat → ℤ)
    (kv : KVCache) : KVCache :=
  { k := writeAllK P newK P.n_layer kv.k,
    v := writeAllV P newV P.n_layer kv.v,
    n := P.n_past + P.N }

/-- Logits extraction (part_001 lines 275 to 287): all `n_vocab * N`
values when `logits_all` is set, otherwise the `n_vocab` values at
offset `n_vocab * (N - 1)` of the output tensor (the last token). -/
def extract_logits (P : EvalParams) (logits_all : Bool) (lmOut : Nat → ℤ) : List ℤ :=
  if logits_all then (List.range (P.n_vocab * P.N)).map lmOut
  else (List.range P.n_vocab).map (fun i => lmOut (P.n_vocab * (P.N - 1) + i))

/-- The `embeddings` graph tensor of `gptneox_model_eval_internal`:
declared NULL at part_001 line 238 ("used at the end to optionally
extract the embeddings") and never assigned anywhere in the function. -/
def embeddingsTensor : Option (Nat → ℤ) := none

/-- Embedding extraction (part_001 lines 289 to 295): when
`lctx.embedding` is non-empty, resize it to `n_embd` and copy `n_embd`
values starting at offset `n_embd * (N - 1)` of `ne_get_data(embeddings)`.
Reading through the (null) `embeddingsTensor` is modelled by `Option.map`,
so a requested embedding yields `none` (the C code dereferences a null
`data` pointer at this point). -/
def extract_embedding (P : EvalParams) (embeddingRequested : Bool) : Option (List ℤ) :=
  if embeddingRequested then
    embeddingsTensor.map (fun d =>
      (List.range P.n_embd).map (fun i => d (P.n_embd * (P.N - 1) + i)))
  else some []

/-- Observable result of `gptneox_model_eval_internal` (part_001 lines 74
to 315): success flag, updated cache, extracted logits.  The function
body's only return statement is `return true` at line 314 (the early
BOS check at lines 77 to 80 is commented out), so the flag is
unconditionally `true`. -/
def gptneox_model_eval_internal (P : EvalParams) (logits_all : Bool)
    (newK : Nat → Nat → ℤ) (newV : Nat → Nat → Nat → ℤ) (lmOut : Nat → ℤ)
    (kv : KVCache) : Bool × KVCache × List ℤ :=
  (true, eval_kv_update P newK newV kv, extract_logits P logits_all lmOut)

/-- `model_eval` (part_001 lines 317 to 331): print and return 1 when the
internal eval fails, return 0 otherwise. -/
def model_eval (P : EvalParams) (logits_all : Bool) (newK : Nat → Nat → ℤ)
    (newV : Nat → Nat → Nat → ℤ) (lmOut : Nat → ℤ) (kv : KVCache) : Nat :=
  if (gptneox_model_eval_internal P logits_all newK newV lmOut kv).1 = false then 1 else 0

/-! ### Cache-write disjointness -/

lemma writeAllK_eq_of_notin (P : EvalParams) (newK : Nat → Nat → ℤ) (n : Nat) (c : Nat → ℤ)
    (idx : Nat) (h : ∀ jl, jl < n → ¬ inKRegion P jl idx) :
    writeAllK P newK n c idx = c idx := by
  induction n with
  | zero => rfl
  | succ m ih =>
    simp only [writeAllK, writeKLayer]
    rw [if_neg (h m (Nat.lt_succ_self m))]
    exact ih fun jl hjl => h jl (Nat.lt_succ_of_lt hjl)

lemma writeAllK_eq_of_in (P : EvalParams) (newK : Nat → Nat → ℤ) (n : Nat) (c : Nat → ℤ)
    (idx il : Nat) (hil : il < n) (hin : inKRegion P il idx)
    (hother : ∀ jl, jl ≠ il → ¬ inKRegion P jl idx) :
    writeAllK P newK n c idx = newK il (idx - P.n_embd * (il * P.n_ctx + P.n_past)) := by
  induction n with
  | zero => exact absurd hil (Nat.not_lt_zero il)
  | succ m ih =>
    simp only [writeAllK, writeKLayer]
    by_cases hm : il = m
    · subst hm
      rw [if_pos hin]
    · rw [if_neg (hother m (fun he => hm he.symm))]
      exact ih (Nat.lt_of_le_of_ne (Nat.lt_succ_iff.1 hil) hm)

lemma writeAllV_eq_of_notin (P : EvalParams) (newV : Nat → Nat → Nat → ℤ) (n : Nat) (c : Nat → ℤ)
    (idx : Nat) (h : ∀ jl, jl < n → ¬ inVRegion P jl idx) :
    writeAllV P newV n c idx = c idx := by
  induction n with
  | zero => rfl
  | succ m ih =>
    simp only [writeAllV, writeVLayer]
    rw [if_neg (h m (Nat.lt_succ_self m))]
    exact ih fun jl hjl => h jl (Nat.lt_succ_of_lt hjl)

lemma writeAllV_eq_of_in (P : EvalParams) (newV : Nat → Nat → Nat → ℤ) (n : Nat) (c : Nat → ℤ)
    (idx il : Nat) (hil : il < n) (hin : inVRegion P il idx)
    (hother : ∀ jl, jl ≠ il → ¬ inVRegion P jl idx) :
    writeAllV P newV n c idx =
      newV il ((idx - il * (P.n_ctx * P.n_embd)) % P.n_ctx - P.n_past)
        ((idx - il * (P.n_ctx * P.n_embd)) / P.n_ctx) := by
  induction n with
  | zero => exact absurd hil (Nat.not_lt_zero il)
  | succ m ih =>
    simp only [writeAllV, writeVLayer]
    by_cases hm : il = m
    · subst hm
      rw [if_pos hin]
    · rw [if_neg (hother m (fun he => hm he.symm))]
      exact ih (Nat.lt_of_le_of_ne (Nat.lt_succ_iff.1 hil) hm)

lemma kIndex_notin_other (P : EvalParams) (hctx : P.n_past + P.N ≤ P.n_ctx)
    {il pos e jl : Nat} (hpos : pos < P.n_ctx) (he : e < P.n_embd) (hne : jl ≠ il) :
    ¬ inKRegion P jl (kIndex P il pos e) := by
  unfold inKRegion kIndex
  intro hmem
  obtain ⟨h1, h2⟩ := hmem
  have eL : P.n_embd * (il * P.n_ctx + pos) =
      P.n_embd * (il * P.n_ctx) + P.n_embd * pos := Nat.mul_add _ _ _
  have eR : P.n_embd * (jl * P.n_ctx + P.n_past) =
      P.n_embd * (jl * P.n_ctx) + P.n_embd * P.n_past := Nat.mul_add _ _ _
  have ecomm : P.N * P.n_embd = P.n_embd * P.N := Nat.mul_comm _ _
  rcases Nat.lt_or_ge jl il with hlt | hge
  · have f1 : P.n_embd * P.n_past + P.n_embd * P.N ≤ P.n_embd * P.n_ctx := by
      have := Nat.mul_le_mul_left P.n_embd hctx
      rw [Nat.mul_add] at this
      exact this
    have f2 : (jl + 1) * P.n_ctx ≤ il * P.n_ctx := Nat.mul_le_mul_right _ hlt
    have f3 : P.n_embd * ((jl + 1) * P.n_ctx) ≤ P.n_embd * (il * P.n_ctx) :=
      Nat.mul_le_mul_left _ f2
    have e4 : P.n_embd * ((jl + 1) * P.n_ctx) =
        P.n_embd * (jl * P.n_ctx) + P.n_embd * P.n_ctx := by
      rw [Nat.succ_mul, Nat.mul_add]
    omega
  · have hgt : il < jl := Nat.lt_of_le_of_ne hge (fun he2 => hne he2.symm)
    have hxy : il * P.n_ctx + pos + 1 ≤ jl * P.n_ctx + P.n_past := by
      have e3 : (il + 1) * P.n_ctx = il * P.n_ctx + P.n_ctx := Nat.succ_mul _ _
      have f8 : (il + 1) * P.n_ctx ≤ jl * P.n_ctx := Nat.mul_le_mul_right _ hgt
      omega
    have f9 : P.n_embd * (il * P.n_ctx + pos + 1) ≤
        P.n_embd * (jl * P.n_ctx + P.n_past) := Nat.mul_le_mul_left _ hxy
    have e7 : P.n_embd * (il * P.n_ctx + pos + 1) =
        P.n_embd * (il * P.n_ctx + pos) + P.n_embd := Nat.mul_succ _ _
    omega

lemma kIndex_notin_self (P : EvalParams) {il pos e : Nat}
    (hpos : pos < P.n_past) (he : e < P.n_embd) :
    ¬ inKRegion P il (kIndex P il pos e) := by
  unfold inKRegion kIndex
  intro hmem
  obtain ⟨h1, _⟩ := hmem
  have eL : P.n_embd * (il * P.n_ctx + pos) =
      P.n_embd * (il * P.n_ctx) + P.n_embd * pos := Nat.mul_add _ _ _
  have eR : P.n_embd * (il * P.n_ctx + P.n_past) =
      P.n_embd * (il * P.n_ctx) + P.n_embd * P.n_past := Nat.mul_add _ _ _
  have f6 : P.n_embd * (pos + 1) ≤ P.n_embd * P.n_past := Nat.mul_le_mul_left _ hpos
  have e6 : P.n_embd * (pos + 1) = P.n_embd * pos + P.n_embd := Nat.mul_succ _ _
  omega

lemma kIndex_in_self (P : EvalParams) (il : Nat) {i e : Nat} (hi : i < P.N) (he : e < P.n_embd) :
    inKRegion P il (kIndex P il (P.n_past + i) e) ∧
    kIndex P il (P.n_past + i) e - P.n_embd * (il * P.n_ctx + P.n_past) =
      i * P.n_embd + e := by
  unfold inKRegion kIndex
  have eL : P.n_embd * (il * P.n_ctx + (P.n_past + i)) =
      P.n_embd * (il * P.n_ctx + P.n_past) + P.n_embd * i := by
    rw [← Nat.add_assoc, Nat.mul_add]
  have ecomm : P.N * P.n_embd = P.n_embd * P.N := Nat.mul_comm _ _
  have ecomm2 : i * P.n_embd = P.n_embd * i := Nat.mul_comm _ _
  have f1 : P.n_embd * (i + 1) ≤ P.n_embd * P.N := Nat.mul_le_mul_left _ hi
  have e1 : P.n_embd * (i + 1) = P.n_embd * i + P.n_embd := Nat.mul_succ _ _
  omega

lemma vIndex_notin_other (P : EvalParams) {il pos e jl : Nat}
    (hpos : pos < P.n_ctx) (he : e < P.n_embd) (hne : jl ≠ il) :
    ¬ inVRegion P jl (vIndex P il pos e) := by
  unfold inVRegion vIndex
  intro hmem
  obtain ⟨h1, h2, _, _⟩ := hmem
  have hoff : e * P.n_ctx + pos < P.n_ctx * P.n_embd := by
    have f1 : (e + 1) * P.n_ctx ≤ P.n_embd * P.n_ctx := Nat.mul_le_mul_right _ he
    have e1 : (e + 1) * P.n_ctx = e * P.n_ctx + P.n_ctx := Nat.succ_mul _ _
    have ecomm : P.n_embd * P.n_ctx = P.n_ctx * P.n_embd := Nat.mul_comm _ _
    omega
  rcases Nat.lt_or_ge jl il with hlt | hge
  · have f2 : (jl + 1) * (P.n_ctx * P.n_embd) ≤ il * (P.n_ctx * P.n_embd) :=
      Nat.mul_le_mul_right _ hlt
    omega
  · have hgt : il < jl := Nat.lt_of_le_of_ne hge (fun he2 => hne he2.symm)
    have f3 : (il + 1) * (P.n_ctx * P.n_embd) ≤ jl * (P.n_ctx * P.n_embd) :=
      Nat.mul_le_mul_right _ hgt
    have e3 : (il + 1) * (P.n_ctx * P.n_embd) =
        il * (P.n_ctx * P.n_embd) + P.n_ctx * P.n_embd := Nat.succ_mul _ _
    omega

lemma vIndex_notin_self (P : EvalParams) {il pos e : Nat}
    (hpos : pos < P.n_past) (hposc : pos < P.n_ctx) (he : e < P.n_embd) :
    ¬ inVRegion P il (vIndex P il pos e) := by
  unfold inVRegion vIndex
  intro hmem
  obtain ⟨_, _, h3, _⟩ := hmem
  have e1 : il * (P.n_ctx * P.n_embd) + e * P.n_ctx + pos - il * (P.n_ctx * P.n_embd) =
      e * P.n_ctx + pos := by omega
  rw [e1, Nat.add_comm (e * P.n_ctx) pos, Nat.add_mul_mod_self_right,
    Nat.mod_eq_of_lt hposc] at h3
  omega

lemma vIndex_in_self (P : EvalParams) (hctx : P.n_past + P.N ≤ P.n_ctx)
    (il : Nat) {i e : Nat} (hi : i < P.N) (he : e < P.n_embd) :
    inVRegion P il (vIndex P il (P.n_past + i) e) ∧
    (vIndex P il (P.n_past + i) e - il * (P.n_ctx * P.n_embd)) % P.n_ctx - P.n_past = i ∧
    (vIndex P il (P.n_past + i) e - il * (P.n_ctx * P.n_embd)) / P.n_ctx = e := by
  unfold inVRegion vIndex
  have hposc : P.n_past + i < P.n_ctx := by omega
  have e1 : il * (P.n_ctx * P.n_embd) + e * P.n_ctx + (P.n_past + i) -
      il * (P.n_ctx * P.n_embd) = e * P.n_ctx + (P.n_past + i) := by omega
  have emod : (e * P.n_ctx + (P.n_past + i)) % P.n_ctx = P.n_past + i := by
    rw [Nat.add_comm (e * P.n_ctx) (P.n_past + i), Nat.add_mul_mod_self_right,
      Nat.mod_eq_of_lt hposc]
  have ediv : (e * P.n_ctx + (P.n_past + i)) / P.n_ctx = e := by
    rw [Nat.add_comm (e * P.n_ctx) (P.n_past + i), Nat.add_mul_div_right _ _ (by omega : 0 < P.n_ctx),
      Nat.div_eq_of_lt hposc]
    omega
  have hoff : e * P.n_ctx + (P.n_past + i) < P.n_ctx * P.n_embd := by
    have f1 : (e + 1) * P.n_ctx ≤ P.n_embd * P.n_ctx := Nat.mul_le_mul_right _ he
    have e2 : (e + 1) * P.n_ctx = e * P.n_ctx + P.n_ctx := Nat.succ_mul _ _
    have ecomm : P.n_embd * P.n_ctx = P.n_ctx * P.n_embd := Nat.mul_comm _ _
    omega
  have e3 : (il + 1) * (P.n_ctx * P.n_embd) =
      il * (P.n_ctx * P.n_embd) + P.n_ctx * P.n_embd := Nat.succ_mul _ _
  refine ⟨⟨by omega, by omega, ?_, ?_⟩, ?_, ?_⟩
  · rw [e1, emod]; omega
  · rw [e1, emod]; omega
  · rw [e1, emod]; omega
  · rw [e1, ediv]

/-- C2.  After a successful `evaluate` with `n_past = p` and
`tokenCount = N` (with `p + N` within the cache capacity `n_ctx`), the
cache's valid length equals `p + N`, the new K/V entries of every layer
are written at offset `p` (position `p + i` holds the `i`-th new entry),
and the first `p` cached entries of every layer are byte-identical to
their values before the call. -/
theorem c2_cache_append_invariant (P : EvalParams) (newK : Nat → Nat → ℤ)
    (newV : Nat → Nat → Nat → ℤ) (kv : KVCache) (hctx : P.n_past + P.N ≤ P.n_ctx) :
    (eval_kv_update P newK newV kv).n = P.n_past + P.N ∧
    (∀ il, il < P.n_layer → ∀ pos, pos < P.n_past → ∀ e, e < P.n_embd →
      (eval_kv_update P newK newV kv).k (kIndex P il pos e) = kv.k (kIndex P il pos e) ∧
      (eval_kv_update P newK newV kv).v (vIndex P il pos e) = kv.v (vIndex P il pos e)) ∧
    (∀ il, il < P.n_layer → ∀ i, i < P.N → ∀ e, e < P.n_embd →
      (eval_kv_update P newK newV kv).k (kIndex P il (P.n_past + i) e) =
        newK il (i * P.n_embd + e) ∧
      (eval_kv_update P newK newV kv).v (vIndex P il (P.n_past + i) e) = newV il i e) := by
  refine ⟨rfl, ?_, ?_⟩
  · intro il _ pos hpos e he
    have hposc : pos < P.n_ctx := by omega
    constructor
    · refine writeAllK_eq_of_notin P newK P.n_layer kv.k _ ?_
      intro jl _
      by_cases hji : jl = il
      · subst hji
        exact kIndex_notin_self P hpos he
      · exact kIndex_notin_other P hctx hposc he hji
    · refine writeAllV_eq_of_notin P newV P.n_layer kv.v _ ?_
      intro jl _
      by_cases hji : jl = il
      · subst hji
        exact vIndex_notin_self P hpos hposc he
      · exact vIndex_notin_other P hposc he hji
  · intro il hil i hi e he
    have hposc : P.n_past + i < P.n_ctx := by omega
    obtain ⟨hkin, hkoff⟩ := kIndex_in_self P il hi he
    obtain ⟨hvin, hvmod, hvdiv⟩ := vIndex_in_self P hctx il hi he
    constructor
    · have h1 := writeAllK_eq_of_in P newK P.n_layer kv.k _ il hil hkin ?_
      · show writeAllK P newK P.n_layer kv.k (kIndex P il (P.n_past + i) e) =
          newK il (i * P.n_embd + e)
        rw [h1, hkoff]
      · intro jl hne
        exact kIndex_notin_other P hctx hposc he hne
    · have h1 := writeAllV_eq_of_in P newV P.n_layer kv.v _ il hil hvin ?_
      · show writeAllV P newV P.n_layer kv.v (vIndex P il (P.n_past + i) e) = newV il i e
        rw [h1, hvmod, hvdiv]
      · intro jl hne
        exact vIndex_notin_other P hposc he hne

/-- Witness for C2: a two-layer cache with `n_ctx = 4`, `n_embd = 3`,
`n_past = 1`, `N = 2`; the theorem applied at layer 1, history position
0, component 2, and at new position index 1, component 0. -/
theorem c2_witness :
    ((eval_kv_update ⟨2, 4, 3, 5, 1, 2⟩ (fun il t => il + t) (fun il i j => il + i + j)
        ⟨fun idx => idx, fun idx => 2 * idx, 1⟩).k
      (kIndex ⟨2, 4, 3, 5, 1, 2⟩ 1 0 2) =
      (fun idx => (idx : ℤ)) (kIndex ⟨2, 4, 3, 5, 1, 2⟩ 1 0 2)) ∧
    ((eval_kv_update ⟨2, 4, 3, 5, 1, 2⟩ (fun il t => il + t) (fun il i j => il + i + j)
        ⟨fun idx => idx, fun idx => 2 * idx, 1⟩).v
      (vIndex ⟨2, 4, 3, 5, 1, 2⟩ 1 0 2) =
      (fun idx => ((2 * idx : Nat) : ℤ)) (vIndex ⟨2, 4, 3, 5, 1, 2⟩ 1 0 2)) :=
  (c2_cache_append_invariant ⟨2, 4, 3, 5, 1, 2⟩ (fun il t => il + t) (fun il i j => il + i + j)
      ⟨fun idx => idx, fun idx => 2 * idx, 1⟩ (by decide)).2.1
    1 (by decide) 0 (by decide) 2 (by decide)

/-- C8.  On success, `context.logits` holds `vocabSize * N` values (all
of the output tensor) when the all-logits flag is set, and `vocabSize`
values copied from offset `vocabSize * (N - 1)` of the output tensor
(the last token's logits) when it is not. -/
theorem c8_logits_extraction (P : EvalParams) (newK : Nat → Nat → ℤ)
    (newV : Nat → Nat → Nat → ℤ) (lmOut : Nat → ℤ) (kv : KVCache) :
    ((gptneox_model_eval_internal P true newK newV lmOut kv).2.2.length =
        P.n_vocab * P.N ∧
      ∀ i, i < P.n_vocab * P.N →
        (gptneox_model_eval_internal P true newK newV lmOut kv).2.2.getD i 0 = lmOut i) ∧
    ((gptneox_model_eval_internal P false newK newV lmOut kv).2.2.length = P.n_vocab ∧
      ∀ i, i < P.n_vocab →
        (gptneox_model_eval_internal P false newK newV lmOut kv).2.2.getD i 0 =
          lmOut (P.n_vocab * (P.N - 1) + i)) := by
  refine ⟨⟨?_, ?_⟩, ?_, ?_⟩
  · simp [gptneox_model_eval_internal, extract_logits]
  · intro i hi
    simp [gptneox_model_eval_internal, extract_logits, List.getD_eq_getElem?_getD,
      List.getElem?_map, List.getElem?_range hi]
  · simp [gptneox_model_eval_internal, extract_logits]
  · intro i hi
    simp [gptneox_model_eval_internal, extract_logits, List.getD_eq_getElem?_getD,
      List.getElem?_map, List.getElem?_range hi]

/-- Witness for C8: `n_vocab = 5`, `N = 2`; without the all-logits flag,
entry 3 of the extracted logits is output-tensor element `5*(2-1)+3 = 8`. -/
theorem c8_witness :
    (gptneox_model_eval_internal ⟨2, 4, 3, 5, 1, 2⟩ false (fun _ t => t) (fun _ i j => i + j)
        (fun t => t) ⟨fun idx => idx, fun idx => idx, 0⟩).2.2.getD 3 0 =
      (fun t => (t : ℤ)) (5 * (2 - 1) + 3) :=
  (c8_logits_extraction ⟨2, 4, 3, 5, 1, 2⟩ (fun _ t => t) (fun _ i j => i + j) (fun t => t)
      ⟨fun idx => idx, fun idx => idx, 0⟩).2.2 3 (by decide)

/-- C9.  The code declares the `embeddings` tensor as NULL and never
assigns it, yet the extraction branch reads its data pointer whenever an
embedding is requested: the requested embedding can never be the last
token's hidden state — the evaluation dereferences a null tensor
instead. -/
theorem c9_embedding_reads_null_tensor (P : EvalParams) :
    embeddingsTensor = none ∧ extract_embedding P true = none :=
  ⟨rfl, rfl⟩

/-- C10.  `gptneox_model_eval_internal` returns `true` on every completed
call (its body's only return statement), hence `model_eval` returns `0`
and the cache length is unconditionally advanced to `n_past + N`. -/
theorem c10_model_eval_always_succeeds (P : EvalParams) (logits_all : Bool)
    (newK : Nat → Nat → ℤ) (newV : Nat → Nat → Nat → ℤ) (lmOut : Nat → ℤ) (kv : KVCache) :
    (gptneox_model_eval_internal P logits_all newK newV lmOut kv).1 = true ∧
    model_eval P logits_all newK newV lmOut kv = 0 ∧
    (gptneox_model_eval_internal P logits_all newK newV lmOut kv).2.1.n =
      P.n_past + P.N :=
  ⟨rfl, rfl, rfl⟩

/-! ## Attention scaling, causal mask and softmax

The per-layer attention pipeline of `gptneox_model_eval_internal`
(part_001 lines 180 to 190) computes `KQ` over all `n_past + N` cached
positions, scales it by `1/sqrt(n_embd/n_head)`
(`ne_scale_inplace`), applies `ne_diag_mask_inf_inplace` with parameter
`n_past`, and takes the row-wise softmax (`ne_soft_max_inplace`).
Scores after masking live in `Option ℝ`: `none` is the IEEE `-inf`
written by the mask kernel, and `exp (-inf) = 0` per IEEE semantics
(`expOrZero`); the kernel's max-subtraction inside the softmax is a
numerical-stability rewrite that does not change the value and is
omitted. -/

/-- The `ne_scale_inplace(KQ, 1.0f/sqrt(float(n_embd)/n_head))` node:
every score of query row `t` against cached position `j` is multiplied
by `1/sqrt(headDim)` where `headDim = n_embd/n_head` (real division, as
in the float expression). -/
noncomputable def kq_scaled (n_embd n_head : Nat) (KQ : Nat → Nat → ℝ) : Nat → Nat → ℝ :=
  fun t j => KQ t j * (1 / Real.sqrt ((n_embd : ℝ) / (n_head : ℝ)))

/-- The `ne_diag_mask_inf_inplace(KQ_scaled, n_past)` node: entries of
row `t` with column `j > n_past + t` (cached positions in the future of
query `t`'s global position `n_past + t`) become `-inf`. -/
def ne_diag_mask_inf (n_past : Nat) (a : Nat → Nat → ℝ) : Nat → Nat → Option ℝ :=
  fun t j => if n_past + t < j then none else some (a t j)

/-- IEEE exponential on the masked-score domain: `exp (-inf) = 0`. -/
noncomputable def expOrZero : Option ℝ → ℝ
  | none => 0
  | some x => Real.exp x

/-- Row-wise softmax of `ne_soft_max_inplace` over `ncols` cached
positions. -/
noncomputable def ne_soft_max (ncols : Nat) (row : Nat → Option ℝ) (j : Nat) : ℝ :=
  expOrZero (row j) / ∑ l ∈ Finset.range ncols, expOrZero (row l)

/-- Post-softmax attention weight of query row `t` (global position
`n_past + t`) against cached position `j`, after scale and causal mask,
as composed by the evaluator. -/
noncomputable def attn_weights (n_embd n_head n_past N : Nat) (KQ : Nat → Nat → ℝ) :
    Nat → Nat → ℝ :=
  fun t j =>
    ne_soft_max (n_past + N) (ne_diag_mask_inf n_past (kq_scaled n_embd n_head KQ) t) j

/-- C3.  In every layer and for every query row `t < N`: the score
matrix is scaled by `1/sqrt(headDim)` with `headDim = n_embd/n_head`
(unmasked entries equal the raw score times that factor), the causal
mask turns exactly the entries at future positions `j > n_past + t` into
`-inf` before the softmax, and the post-softmax attention weight on any
future position is exactly zero — while the softmax denominator of the
row is strictly positive, so the row is not degenerate. -/
theorem c3_causal_mask_zeroes_future (n_embd n_head n_past N : Nat) (KQ : Nat → Nat → ℝ)
    (t j : Nat) (ht : t < N) :
    (¬ n_past + t < j →
      ne_diag_mask_inf n_past (kq_scaled n_embd n_head KQ) t j =
        some (KQ t j * (1 / Real.sqrt ((n_embd : ℝ) / (n_head : ℝ))))) ∧
    (n_past + t < j →
      ne_diag_mask_inf n_past (kq_scaled n_embd n_head KQ) t j = none) ∧
    (n_past + t < j → attn_weights n_embd n_head n_past N KQ t j = 0) ∧
    0 < ∑ l ∈ Finset.range (n_past + N),
      expOrZero (ne_diag_mask_inf n_past (kq_scaled n_embd n_head KQ) t l) := by
  refine ⟨?_, ?_, ?_, ?_⟩
  · intro hfut
    simp only [ne_diag_mask_inf, kq_scaled, if_neg hfut]
  · intro hfut
    simp only [ne_diag_mask_inf, if_pos hfut]
  · intro hfut
    unfold attn_weights ne_soft_max
    rw [show ne_diag_mask_inf n_past (kq_scaled n_embd n_head KQ) t j = none from by
      simp only [ne_diag_mask_inf, if_pos hfut]]
    show (0 : ℝ) / _ = 0
    exact zero_div _
  · refine Finset.sum_pos' (fun l _ => ?_) ⟨n_past + t, Finset.mem_range.2 (by omega), ?_⟩
    · unfold ne_diag_mask_inf
      by_cases hc : n_past + t < l
      · rw [if_pos hc]
        exact le_refl 0
      · rw [if_neg hc]
        exact le_of_lt (Real.exp_pos _)
    · rw [show ne_diag_mask_inf n_past (kq_scaled n_embd n_head KQ) t (n_past + t) =
          some (kq_scaled n_embd n_head KQ t (n_past + t)) from by
        simp only [ne_diag_mask_inf, if_neg (lt_irrefl (n_past + t))]]
      exact Real.exp_pos _

/-- Witness for C3: with `n_embd = 4`, `n_head = 2`, `n_past = 1`,
`N = 2`, zero raw scores, the weight of query row 0 (global position 1)
on future cached position 2 is exactly zero. -/
theorem c3_witness :
    attn_weights 4 2 1 2 (fun _ _ => (0 : ℝ)) 0 2 = 0 :=
  (c3_causal_mask_zeroes_future 4 2 1 2 (fun _ _ => (0 : ℝ)) 0 2 (by decide)).2.2.1
    (by decide)

/-! ## Scratch-buffer sizing (`alloca(_config.StackSize)`)

`launch` lays B, A and C tiles out in one stack block (lines 66 to 69):
`tmpB` at byte 0, `tmpA` after `NStep*KStep` B elements, `tmpC` after a
further `MTILE*KStep` A elements.  `eventAccess` gives the byte
intervals each recorded event touches, following the source pointer
arithmetic; the element sizes `sizeA/B/C` are the `sizeof` of the
respective template types. -/

/-- Byte offset of `tmpA` within the scratch block. -/
def tmpAoffset (cfg : ParallelConfig) (sizeB : Nat) : Nat :=
  cfg.NStep * cfg.KStep * sizeB

/-- Byte offset of `tmpC` within the scratch block. -/
def tmpCoffset (core : GemmCoreT) (cfg : ParallelConfig) (sizeA sizeB : Nat) : Nat :=
  tmpAoffset cfg sizeB + core.MTILE * cfg.KStep * sizeA

/-- Worst-case scratch requirement of one `launch`: a `NStep*KStep` B
tile, a `MTILE*KStep` A tile and a `MStep*NStep` C tile. -/
def scratchRequirement (core : GemmCoreT) (cfg : ParallelConfig) (sizeA sizeB sizeC : Nat) :
    Nat :=
  cfg.NStep * cfg.KStep * sizeB + core.MTILE * cfg.KStep * sizeA +
    cfg.MStep * cfg.NStep * sizeC

/-- Scratch byte intervals `(start, length)` accessed by one launcher
event: the packed B tile written by `getWeight`, the A tile written by
`getActivation`, the B/A reads and the strided C rows written by a
micro-kernel call (rows of stride `NStep` elements starting at
`tmpC + cOff`), and the C rows read back by the epilogue. -/
def eventAccess (core : GemmCoreT) (cfg : ParallelConfig) (sizeA sizeB sizeC : Nat) :
    GemmEvent → List (Nat × Nat)
  | GemmEvent.getWeight kPadded nPadded _ _ => [(0, kPadded * nPadded * sizeB)]
  | GemmEvent.getActivation mRemain kLen _ _ =>
      [(tmpAoffset cfg sizeB, mRemain * kLen * sizeA)]
  | GemmEvent.kernForward mRemain nPadded kLen _ cOff bOff _ =>
      [(bOff * sizeB, kLen * nPadded * sizeB),
       (tmpAoffset cfg sizeB, mRemain * kLen * sizeA),
       (tmpCoffset core cfg sizeA sizeB + cOff * sizeC,
        ((mRemain - 1) * cfg.NStep + nPadded) * sizeC)]
  | GemmEvent.epilogueCall _ _ msize nsize =>
      [(tmpCoffset core cfg sizeA sizeB, ((msize - 1) * cfg.NStep + nsize) * sizeC)]

/-! ### Arithmetic facts about the tiling helpers -/

lemma mem_chunkStarts_lt {total step x : Nat} (hs : 0 < step) (hx : x ∈ chunkStarts total step) :
    x < total := by
  unfold chunkStarts at hx
  rcases List.mem_map.1 hx with ⟨c, hc, rfl⟩
  rw [List.mem_range] at hc
  have h2 : (c + 1) * step ≤ total + step - 1 := by
    rw [← Nat.le_div_iff_mul_le hs]
    exact hc
  have h3 : (c + 1) * step = c * step + step := Nat.succ_mul _ _
  omega

lemma remainsize_le (pos total size : Nat) : remainsize pos total size ≤ size :=
  Nat.min_le_left _ _

lemma remainsize_pos {pos total size : Nat} (hpt : pos < total) (hs : 0 < size) :
    0 < remainsize pos total size := by
  unfold remainsize
  omega

lemma remainsize_add_le (pos total size : Nat) :
    pos + remainsize pos total size ≤ max pos total := by
  unfold remainsize
  omega

lemma padto_le_of_le_dvd {x n s : Nat} (hn : 0 < n) (hd : n ∣ s) (hx : x ≤ s) :
    padto x n ≤ s := by
  obtain ⟨t, rfl⟩ := hd
  unfold padto
  have h1 : (x + n - 1) / n ≤ t := by
    rw [Nat.div_le_iff_le_mul_add_pred hn]
    omega
  calc (x + n - 1) / n * n ≤ t * n := Nat.mul_le_mul_right _ h1
    _ = n * t := Nat.mul_comm _ _

lemma le_padto_of_pos {x n : Nat} (hx : 0 < x) (hn : 0 < n) : n ≤ padto x n := by
  unfold padto
  have h1 : 1 ≤ (x + n - 1) / n := by
    rw [Nat.le_div_iff_mul_le hn]
    omega
  calc n = 1 * n := (Nat.one_mul n).symm
    _ ≤ (x + n - 1) / n * n := Nat.mul_le_mul_right _ h1

lemma add_dvd_le_of_lt {a x y : Nat} (hx : a ∣ x) (hy : a ∣ y) (hxy : x < y) :
    x + a ≤ y := by
  obtain ⟨u, rfl⟩ := hx
  obtain ⟨v, rfl⟩ := hy
  rcases Nat.eq_zero_or_pos a with rfl | ha
  · simp at hxy
  have huv : u < v := Nat.lt_of_mul_lt_mul_left hxy
  calc a * u + a = a * (u + 1) := (Nat.mul_succ a u).symm
    _ ≤ a * v := Nat.mul_le_mul_left _ huv

/-! ### Per-interval bounds against the scratch requirement -/

lemma access_bound_getWeight (core : GemmCoreT) (cfg : ParallelConfig)
    (sizeA sizeB sizeC kP nP : Nat) (hk : kP ≤ cfg.KStep) (hn : nP ≤ cfg.NStep) :
    kP * nP * sizeB ≤ scratchRequirement core cfg sizeA sizeB sizeC := by
  have h1 : kP * nP ≤ cfg.KStep * cfg.NStep := Nat.mul_le_mul hk hn
  have h2 : kP * nP * sizeB ≤ cfg.KStep * cfg.NStep * sizeB := Nat.mul_le_mul_right _ h1
  have h3 : cfg.KStep * cfg.NStep = cfg.NStep * cfg.KStep := Nat.mul_comm _ _
  rw [h3] at h2
  unfold scratchRequirement
  omega

lemma access_bound_A {core : GemmCoreT} {cfg : ParallelConfig}
    {sizeA sizeB sizeC m k : Nat} (hm : m ≤ core.MTILE) (hk : k ≤ cfg.KStep) :
    tmpAoffset cfg sizeB + m * k * sizeA ≤ scratchRequirement core cfg sizeA sizeB sizeC := by
  have h1 : m * k ≤ core.MTILE * cfg.KStep := Nat.mul_le_mul hm hk
  have h2 : m * k * sizeA ≤ core.MTILE * cfg.KStep * sizeA := Nat.mul_le_mul_right _ h1
  unfold scratchRequirement tmpAoffset
  omega

lemma access_bound_C (core : GemmCoreT) (cfg : ParallelConfig)
    (sizeA sizeB sizeC row nP : Nat) (hrow : row < cfg.MStep) (hn : nP ≤ cfg.NStep) :
    tmpCoffset core cfg sizeA sizeB + (row * cfg.NStep + nP) * sizeC ≤
      scratchRequirement core cfg sizeA sizeB sizeC := by
  have h2 : row * cfg.NStep ≤ (cfg.MStep - 1) * cfg.NStep :=
    Nat.mul_le_mul_right _ (by omega)
  have h4 : (cfg.MStep - 1 + 1) * cfg.NStep = (cfg.MStep - 1) * cfg.NStep + cfg.NStep :=
    Nat.succ_mul _ _
  have h5 : cfg.MStep - 1 + 1 = cfg.MStep := by omega
  rw [h5] at h4
  have h6 : (row * cfg.NStep + nP) * sizeC ≤ cfg.MStep * cfg.NStep * sizeC :=
    Nat.mul_le_mul_right _ (by omega)
  unfold scratchRequirement tmpCoffset tmpAoffset
  omega

lemma access_bound_kernC (core : GemmCoreT) (cfg : ParallelConfig)
    (sizeA sizeB sizeC i m nP : Nat) (him : i + m ≤ cfg.MStep) (hm : 0 < m)
    (hn : nP ≤ cfg.NStep) :
    tmpCoffset core cfg sizeA sizeB + i * cfg.NStep * sizeC +
      ((m - 1) * cfg.NStep + nP) * sizeC ≤
      scratchRequirement core cfg sizeA sizeB sizeC := by
  have key := access_bound_C core cfg sizeA sizeB sizeC (i + (m - 1)) nP (by omega) hn
  have e1 : ((i + (m - 1)) * cfg.NStep + nP) * sizeC =
      i * cfg.NStep * sizeC + ((m - 1) * cfg.NStep + nP) * sizeC := by ring
  omega

lemma access_bound_tailB (core : GemmCoreT) (cfg : ParallelConfig)
    (sizeA sizeB sizeC kle nP : Nat)
    (hdK : core.KTILE ∣ cfg.KStep) (hkle : core.KTILE ∣ kle) (hlt : kle < cfg.KStep)
    (hnt : core.NTILE ≤ nP) (hn : nP ≤ cfg.NStep) :
    kle * core.NTILE * sizeB + core.KTILE * nP * sizeB ≤
      scratchRequirement core cfg sizeA sizeB sizeC := by
  have h1 : kle + core.KTILE ≤ cfg.KStep := add_dvd_le_of_lt hkle hdK hlt
  have h2 : kle * core.NTILE ≤ kle * nP := Nat.mul_le_mul_left _ hnt
  have h3 : kle * nP + core.KTILE * nP = (kle + core.KTILE) * nP := (Nat.add_mul _ _ _).symm
  have h4 : (kle + core.KTILE) * nP ≤ cfg.KStep * cfg.NStep := Nat.mul_le_mul h1 hn
  have h5 : cfg.KStep * cfg.NStep = cfg.NStep * cfg.KStep := Nat.mul_comm _ _
  rw [h5] at h4
  have h7 : kle * core.NTILE * sizeB ≤ kle * nP * sizeB := Nat.mul_le_mul_right _ h2
  have h8 : kle * nP * sizeB + core.KTILE * nP * sizeB =
      (kle * nP + core.KTILE * nP) * sizeB := (Nat.add_mul _ _ _).symm
  have h9 : (kle * nP + core.KTILE * nP) * sizeB ≤ cfg.NStep * cfg.KStep * sizeB :=
    Nat.mul_le_mul_right _ (by omega)
  unfold scratchRequirement
  omega

lemma run_block_access_bound (core : GemmCoreT) (cfg : ParallelConfig)
    (K bm bn bms bns sizeA sizeB sizeC : Nat)
    (hKS : 0 < cfg.KStep) (hMT : 0 < core.MTILE) (hNT : 0 < core.NTILE) (hKT : 0 < core.KTILE)
    (hdN : core.NTILE ∣ cfg.NStep) (hdK : core.KTILE ∣ cfg.KStep)
    (hbms_le : bms ≤ cfg.MStep) (hbms_pos : 0 < bms)
    (hbns_le : bns ≤ cfg.NStep) (hbns_pos : 0 < bns) :
    ∀ e ∈ run_block core cfg K bm bn bms bns,
      ∀ iv ∈ eventAccess core cfg sizeA sizeB sizeC e,
        iv.1 + iv.2 ≤ scratchRequirement core cfg sizeA sizeB sizeC := by
  intro e he iv hiv
  have hnp_le : padto bns core.NTILE ≤ cfg.NStep := padto_le_of_le_dvd hNT hdN hbns_le
  have hnp_ge : core.NTILE ≤ padto bns core.NTILE := le_padto_of_pos hbns_pos hNT
  simp only [run_block, List.mem_append, List.mem_singleton] at he
  rcases he with he | rfl
  · rw [List.mem_flatten] at he
    obtain ⟨l3, hl3, he⟩ := he
    rw [List.mem_map] at hl3
    obtain ⟨iterk, hiterk, rfl⟩ := hl3
    have hkr_le : remainsize iterk K cfg.KStep ≤ cfg.KStep := remainsize_le _ _ _
    have hkr_pos : 0 < remainsize iterk K cfg.KStep :=
      remainsize_pos (mem_chunkStarts_lt hKS hiterk) hKS
    have hkpad_le : padto (remainsize iterk K cfg.KStep) core.KTILE ≤ cfg.KStep :=
      padto_le_of_le_dvd hKT hdK hkr_le
    have hkle_le : padto_le (remainsize iterk K cfg.KStep) core.KTILE ≤
        remainsize iterk K cfg.KStep := Nat.div_mul_le_self _ _
    simp only [kChunkEvents, List.mem_cons, List.mem_flatten, List.mem_map] at he
    rcases he with rfl | ⟨l4, ⟨i, hi, rfl⟩, he⟩
    · simp only [eventAccess, List.mem_singleton] at hiv
      subst hiv
      have hb := access_bound_getWeight core cfg sizeA sizeB sizeC
        (padto (remainsize iterk K cfg.KStep) core.KTILE) (padto bns core.NTILE)
        hkpad_le hnp_le
      show 0 + padto (remainsize iterk K cfg.KStep) core.KTILE * padto bns core.NTILE * sizeB ≤ _
      omega
    · have hilt : i < bms := mem_chunkStarts_lt hMT hi
      have hm_le : remainsize i bms core.MTILE ≤ core.MTILE := remainsize_le _ _ _
      have hm_pos : 0 < remainsize i bms core.MTILE := remainsize_pos hilt hMT
      have him : i + remainsize i bms core.MTILE ≤ bms := by
        unfold remainsize
        omega
      rcases List.mem_append.1 he with h | h
      · by_cases hc : padto_le (remainsize iterk K cfg.KStep) core.KTILE ≠ 0
        · rw [if_pos hc] at h
          simp only [List.mem_cons, List.not_mem_nil, or_false] at h
          rcases h with rfl | rfl
          · simp only [eventAccess, List.mem_singleton] at hiv
            subst hiv
            exact access_bound_A hm_le (Nat.le_trans hkle_le hkr_le)
          · simp only [eventAccess, List.mem_cons, List.not_mem_nil, or_false] at hiv
            rcases hiv with rfl | rfl | rfl
            · have hb := access_bound_getWeight core cfg sizeA sizeB sizeC
                (padto_le (remainsize iterk K cfg.KStep) core.KTILE)
                (padto bns core.NTILE) (Nat.le_trans hkle_le hkr_le) hnp_le
              show 0 * sizeB + _ * _ * sizeB ≤ _
              omega
            · exact access_bound_A hm_le (Nat.le_trans hkle_le hkr_le)
            · have hb := access_bound_kernC core cfg sizeA sizeB sizeC i
                (remainsize i bms core.MTILE) (padto bns core.NTILE) (by omega) hm_pos hnp_le
              show tmpCoffset core cfg sizeA sizeB + i * cfg.NStep * sizeC + _ ≤ _
              omega
        · rw [if_neg hc] at h
          exact absurd h (List.not_mem_nil e)
      · by_cases hc : remainsize iterk K cfg.KStep -
            padto_le (remainsize iterk K cfg.KStep) core.KTILE ≠ 0
        · rw [if_pos hc] at h
          simp only [List.mem_cons, List.not_mem_nil, or_false] at h
          rcases h with rfl | rfl
          · simp only [eventAccess, List.mem_singleton] at hiv
            subst hiv
            exact access_bound_A hm_le (by omega)
          · simp only [eventAccess, List.mem_cons, List.not_mem_nil, or_false] at hiv
            rcases hiv with rfl | rfl | rfl
            · have hkledvd : core.KTILE ∣ padto_le (remainsize iterk K cfg.KStep) core.KTILE :=
                dvd_mul_left _ _
              have hb := access_bound_tailB core cfg sizeA sizeB sizeC
                (padto_le (remainsize iterk K cfg.KStep) core.KTILE) (padto bns core.NTILE)
                hdK hkledvd
                (by omega : padto_le (remainsize iterk K cfg.KStep) core.KTILE < cfg.KStep)
                hnp_ge hnp_le
              omega
            · exact access_bound_A hm_le (Nat.le_of_dvd hKS hdK)
            · have hb := access_bound_kernC core cfg sizeA sizeB sizeC i
                (remainsize i bms core.MTILE) (padto bns core.NTILE) (by omega) hm_pos hnp_le
              show tmpCoffset core cfg sizeA sizeB + i * cfg.NStep * sizeC + _ ≤ _
              omega
        · rw [if_neg hc] at h
          exact absurd h (List.not_mem_nil e)
  · simp only [eventAccess, List.mem_singleton] at hiv
    subst hiv
    have hb := access_bound_C core cfg sizeA sizeB sizeC (bms - 1) bns (by omega) hbns_le
    exact hb

/-- C7.  Every scratch access of `launch` (the B, A and C tiles laid out
by the pointer arithmetic at lines 66 to 69 and touched by `run_block`)
falls within the `StackSize` bytes of the `alloca` block, provided the
step sizes are tile-aligned and the workspace requirement reported for
the partition plan — the worst case of `NStep*KStep` B elements,
`MTILE*KStep` A elements and `MStep*NStep` C elements — fits in
`StackSize`.  (Modelled from the spec: the `Parallel2DGemm` partitioner
that chooses the steps so that this requirement fits the L2-sized stack
block is not among the analysed sources; its guarantee is the
`scratchRequirement ≤ StackSize` hypothesis.) -/
theorem c7_scratch_accesses_within_stacksize (core : GemmCoreT) (cfg : ParallelConfig)
    (p : GemmParam) (sizeA sizeB sizeC : Nat)
    (hMS : 0 < cfg.MStep) (hNS : 0 < cfg.NStep) (hKS : 0 < cfg.KStep)
    (hMT : 0 < core.MTILE) (hNT : 0 < core.NTILE) (hKT : 0 < core.KTILE)
    (hdN : core.NTILE ∣ cfg.NStep) (hdK : core.KTILE ∣ cfg.KStep)
    (hws : scratchRequirement core cfg sizeA sizeB sizeC ≤ cfg.StackSize) :
    ∀ e ∈ launch core cfg p, ∀ iv ∈ eventAccess core cfg sizeA sizeB sizeC e,
      iv.1 + iv.2 ≤ cfg.StackSize := by
  intro e he iv hiv
  suffices h : iv.1 + iv.2 ≤ scratchRequirement core cfg sizeA sizeB sizeC by omega
  simp only [launch] at he
  rw [List.mem_flatten] at he
  obtain ⟨l1, hl1, he⟩ := he
  rw [List.mem_map] at hl1
  obtain ⟨itern, hitern, rfl⟩ := hl1
  rw [List.mem_flatten] at he
  obtain ⟨l2, hl2, he⟩ := he
  rw [List.mem_map] at hl2
  obtain ⟨iterm, hiterm, rfl⟩ := hl2
  refine run_block_access_bound core cfg p.K iterm itern _ _ sizeA sizeB sizeC
    hKS hMT hNT hKT hdN hdK (remainsize_le _ _ _) ?_ (remainsize_le _ _ _) ?_ e he iv hiv
  · exact remainsize_pos (mem_chunkStarts_lt hMS hiterm) hMS
  · exact remainsize_pos (mem_chunkStarts_lt hNS hitern) hNS

/-- Witness for C7: `2 by 2 by 2` tiles, steps `(2, 4, 2)`, a stack of
`200` bytes covering the requirement `4*2*4 + 2*2*4 + 2*4*4 = 80`, and
the first interval of the first trace event. -/
theorem c7_witness :
    ((0, 2 * 4 * 4) : Nat × Nat).1 + ((0, 2 * 4 * 4) : Nat × Nat).2 ≤ 200 := by
  refine c7_scratch_accesses_within_stacksize ⟨2, 2, 2⟩ ⟨0, 0, 2, 4, 2, 4, 2, 200⟩ ⟨2, 4, 2⟩
    4 4 4 (by decide) (by decide) (by decide) (by decide) (by decide) (by decide)
    (by decide) (by decide) (by decide) (GemmEvent.getWeight 2 4 0 0) ?_ (0, 2 * 4 * 4) ?_
  · show GemmEvent.getWeight 2 4 0 0 ∈ launch ⟨2, 2, 2⟩ ⟨0, 0, 2, 4, 2, 4, 2, 200⟩ ⟨2, 4, 2⟩
    decide
  · show ((0, 2 * 4 * 4) : Nat × Nat) ∈ eventAccess ⟨2, 2, 2⟩ ⟨0, 0, 2, 4, 2, 4, 2, 200⟩ 4 4 4
      (GemmEvent.getWeight 2 4 0 0)
    decide

end S2P
